import Mathlib

/-!
# Verification of the padel-scores rating and tier-assignment core

Shallow embedding of `streamlit_app.py`:

* `calculate_team_trueskill` — the rating engine.  The external
  `trueskill.rate` capability is an abstract parameter (`RateFn`): the spec
  treats the pairwise Bayesian update as an external algorithm, so every
  theorem below is proved for an arbitrary rate function.  Python's
  insertion-ordered `dict` is embedded as an association list with
  first-match lookup (`dfind`), in-place overwrite / append-if-new
  assignment (`dset`), and membership (`dfind _ _ |>.isSome`).
* `assign_titles` — the tier assigner, embedded over the ranking list.

Real numbers of the source are embedded as `ℚ`; Python `round(x, 2)` is
`round2`; `pandas.Series.sort_values(ascending=False)` is a descending
sort (`List.insertionSort` by `rankGE`; the source's tie order is
unspecified, see spec §9, and no theorem below depends on tie order).
-/

namespace PadelScores

/-- Per-player skill belief: `trueskill.Rating(mu, sigma)`. -/
structure Rating where
  mu : ℚ
  sigma : ℚ
deriving DecidableEq

/-- One row of the input match log. -/
structure MatchRecord where
  team_1_player_left : String
  team_1_player_right : String
  team_2_player_left : String
  team_2_player_right : String
  team_1_score : ℕ
  team_2_score : ℕ
deriving DecidableEq

/-- The external pairwise update capability (`trueskill.rate`): given the
two teams' current ratings and whether team 1 won, return the updated
ratings of both teams. -/
abbrev RateFn : Type :=
  (Rating × Rating) → (Rating × Rating) → Bool → ((Rating × Rating) × (Rating × Rating))

/-- Python `dict` lookup on an insertion-ordered association list. -/
def dfind {α : Type} : List (String × α) → String → Option α
  | [], _ => none
  | (k, v) :: t, key => if key = k then some v else dfind t key

/-- Python `dict` assignment: overwrite in place if the key is present,
append otherwise. -/
def dset {α : Type} : List (String × α) → String → α → List (String × α)
  | [], key, v => [(key, v)]
  | (k, w) :: t, key, v => if key = k then (key, v) :: t else (k, w) :: dset t key v

/-- Lookup with a default (the engine only reads keys it has initialized). -/
def dgetD {α : Type} (d : List (String × α)) (key : String) (v0 : α) : α :=
  (dfind d key).getD v0

def defaultRating : Rating := ⟨0, 0⟩

/-- The four player slots of a record in the order the source reads them
(line 17: `[t1_p1, t1_p2, t2_p1, t2_p2]`). -/
def recordPlayers (r : MatchRecord) : List String :=
  [r.team_1_player_left, r.team_1_player_right, r.team_2_player_left,
    r.team_2_player_right]

/-- Lines 18–19: `if p not in ratings: ratings[p] = Rating(starting_mu, starting_sigma)`. -/
def initPlayer (mu sigma : ℚ) (d : List (String × Rating)) (p : String) :
    List (String × Rating) :=
  if (dfind d p).isSome then d else dset d p ⟨mu, sigma⟩

/-- Lines 17–19: initialize the four players of a record if unseen. -/
def initPlayers (mu sigma : ℚ) (r : MatchRecord) (d : List (String × Rating)) :
    List (String × Rating) :=
  (recordPlayers r).foldl (initPlayer mu sigma) d

/-- Lines 24–36, one loop body: read the four current beliefs, call
`trueskill.rate` with the given winner, write the four results back
(team-1 left, team-1 right, team-2 left, team-2 right). -/
def gameStep (rate : RateFn) (r : MatchRecord) (team1Won : Bool)
    (d : List (String × Rating)) : List (String × Rating) :=
  let team1 := (dgetD d r.team_1_player_left defaultRating,
                dgetD d r.team_1_player_right defaultRating)
  let team2 := (dgetD d r.team_2_player_left defaultRating,
                dgetD d r.team_2_player_right defaultRating)
  let res := rate team1 team2 team1Won
  let d1 := dset d r.team_1_player_left res.1.1
  let d2 := dset d1 r.team_1_player_right res.1.2
  let d3 := dset d2 r.team_2_player_left res.2.1
  dset d3 r.team_2_player_right res.2.2

/-- Lines 13–36: process one match record — initialize unseen players,
then `team_1_score` games won by team 1, then `team_2_score` games won by
team 2. -/
def processRecord (rate : RateFn) (mu sigma : ℚ) (d : List (String × Rating))
    (r : MatchRecord) : List (String × Rating) :=
  let d1 := initPlayers mu sigma r d
  let d2 := (List.range r.team_1_score).foldl
    (fun acc _ => gameStep rate r true acc) d1
  (List.range r.team_2_score).foldl (fun acc _ => gameStep rate r false acc) d2

/-- Lines 10–11: the belief mapping starts with the single seeded entry
`ratings["Charlie"] = trueskill.Rating(mu=5.25, sigma=starting_sigma)`. -/
def initialRatings (sigma : ℚ) : List (String × Rating) :=
  [("Charlie", ⟨5.25, sigma⟩)]

/-- Lines 10–36: the belief mapping after all match records. -/
def finalRatings (rate : RateFn) (df : List MatchRecord) (mu sigma : ℚ) :
    List (String × Rating) :=
  df.foldl (processRecord rate mu sigma) (initialRatings sigma)

/-- Python `round(x, 2)` (line 38), on `ℚ`. -/
def round2 (q : ℚ) : ℚ := (round (q * 100) : ℤ) / 100

/-- Descending order on `(name, rounded rating)` pairs (line 39,
`sort_values(ascending=False)`). -/
def rankGE (a b : String × ℚ) : Prop := b.2 ≤ a.2

instance : DecidableRel rankGE := fun a b => inferInstanceAs (Decidable (b.2 ≤ a.2))

instance : IsTotal (String × ℚ) rankGE := ⟨fun a b => le_total b.2 a.2⟩

instance : IsTrans (String × ℚ) rankGE := ⟨fun _ _ _ h1 h2 => le_trans h2 h1⟩

/-- Lines 9–40: `calculate_team_trueskill` — run the engine, round each
final mean to 2 decimal places, sort descending. -/
def calculate_team_trueskill (rate : RateFn) (df : List MatchRecord)
    (starting_mu starting_sigma : ℚ) : List (String × ℚ) :=
  let ratings := finalRatings rate df starting_mu starting_sigma
  let rounded := ratings.map (fun nr => (nr.1, round2 nr.2.mu))
  List.insertionSort rankGE rounded

/-- Title emoji of line 57. -/
def crown : String := "👑"

/-- Title emoji of lines 61 and 63. -/
def diamond : String := "💎"

/-- Title emoji of line 79. -/
def goldMedal : String := "🥇"

/-- Title emoji of line 85. -/
def silverMedal : String := "🥈"

/-- Title emoji of line 91. -/
def bronzeMedal : String := "🥉"

/-- `ratings_series.index[i]`: the name at rank `i` (only read under an
`idx < total_players` guard in the source). -/
def nameAt (s : List (String × ℚ)) (i : ℕ) : String :=
  (s.getD i ("", 0)).1

/-- One tier loop of lines 77–92: assign `count` players the given label,
starting at the carried index, guarded by `idx < total_players`. -/
def assignBand (s : List (String × ℚ)) (label : String) (count : ℕ)
    (acc : List (String × String) × ℕ) : List (String × String) × ℕ :=
  (List.range count).foldl
    (fun a _ =>
      if a.2 < s.length then (dset a.1 (nameAt s a.2) label, a.2 + 1) else a)
    acc

/-- Lines 43–94: `assign_titles`. -/
def assign_titles (s : List (String × ℚ)) : List (String × String) :=
  let total_players := s.length
  if total_players = 0 then []
  else
    let t0 : List (String × String) := []
    let t1 := if total_players ≥ 1 then dset t0 (nameAt s 0) crown else t0
    let t2 := if total_players ≥ 2 then dset t1 (nameAt s 1) diamond else t1
    let t3 := if total_players ≥ 3 then dset t2 (nameAt s 2) diamond else t2
    let remaining_players := total_players - 3
    if remaining_players > 0 then
      let base_count := remaining_players / 3
      let remainder := remaining_players % 3
      let bronze_count := base_count + (if remainder ≥ 1 then 1 else 0)
      let silver_count := base_count + (if remainder ≥ 2 then 1 else 0)
      let gold_count := base_count
      let a1 := assignBand s goldMedal gold_count (t3, 3)
      let a2 := assignBand s silverMedal silver_count a1
      let a3 := assignBand s bronzeMedal bronze_count a2
      a3.1
    else t3

/-- Instrumented engine for resource accounting: identical state evolution,
plus a counter bumped at every `trueskill.rate` invocation. -/
def processRecordCounted (rate : RateFn) (mu sigma : ℚ)
    (st : List (String × Rating) × ℕ) (r : MatchRecord) :
    List (String × Rating) × ℕ :=
  let d1 := initPlayers mu sigma r st.1
  let s1 := (List.range r.team_1_score).foldl
    (fun acc _ => (gameStep rate r true acc.1, acc.2 + 1)) (d1, st.2)
  (List.range r.team_2_score).foldl
    (fun acc _ => (gameStep rate r false acc.1, acc.2 + 1)) s1

/-- The instrumented engine over a whole match log. -/
def finalRatingsCounted (rate : RateFn) (df : List MatchRecord) (mu sigma : ℚ) :
    List (String × Rating) × ℕ :=
  df.foldl (processRecordCounted rate mu sigma) (initialRatings sigma, 0)

/-- First-seen order of player identifiers: the seed player, then every
player in the order encountered scanning records top-to-bottom, team 1
before team 2, left before right. -/
def seenStep (acc : List String) (r : MatchRecord) : List String :=
  (recordPlayers r).foldl (fun a p => if p ∈ a then a else a ++ [p]) acc

/-- First-seen order over a whole match log. -/
def firstSeen (df : List MatchRecord) : List String :=
  df.foldl seenStep ["Charlie"]

/-- The tier label assigned to rank `i` out of `n` players (proved below to
characterize `assign_titles` for duplicate-free rankings). -/
def titleAt (n i : ℕ) : String :=
  if i = 0 then crown
  else if i < 3 then diamond
  else if i < 3 + (n - 3) / 3 then goldMedal
  else if i < 3 + (n - 3) / 3 + ((n - 3) / 3 + if (n - 3) % 3 ≥ 2 then 1 else 0) then
    silverMedal
  else bronzeMedal

/-- A concrete stand-in for the external rate capability, used to evaluate
theorems on closed inputs. -/
def exRate : RateFn := fun t1 t2 _ => (t1, t2)

/-- Concrete match record with scores 2–1. -/
def exRecord21 : MatchRecord := ⟨"Alice", "Bob", "Cara", "Dan", 2, 1⟩

/-- Concrete match record with scores 0–0. -/
def exRecord00 : MatchRecord := ⟨"Alice", "Bob", "Cara", "Dan", 0, 0⟩

/-- Concrete match record in which one player occupies two slots. -/
def exRecordDup : MatchRecord := ⟨"Alice", "Bob", "Cara", "Alice", 1, 0⟩

/-- Concrete 4-player ranking. -/
def exRanking4 : List (String × ℚ) :=
  [("p1", 9), ("p2", 8), ("p3", 7), ("p4", 6)]

/-- Concrete 10-player ranking. -/
def exRanking10 : List (String × ℚ) :=
  [("p1", 10), ("p2", 9), ("p3", 8), ("p4", 7), ("p5", 6), ("p6", 5),
    ("p7", 4), ("p8", 3), ("p9", 2), ("p10", 1)]

/-! ## Association-list (Python `dict`) lemmas -/

theorem foldl_const {α β : Type} (g : α → α) (a : α) (l : List β) :
    l.foldl (fun x _ => g x) a = g^[l.length] a := by
  induction l generalizing a with
  | nil => rfl
  | cons b t ih => simp [ih, Function.iterate_succ_apply]

theorem dfind_isSome_iff {α : Type} (d : List (String × α)) (k : String) :
    (dfind d k).isSome ↔ k ∈ d.map Prod.fst := by
  induction d with
  | nil => simp [dfind]
  | cons kv t ih =>
    obtain ⟨k1, v⟩ := kv
    by_cases h : k = k1 <;> simp [dfind, h, ih]

theorem dfind_eq_none_iff {α : Type} (d : List (String × α)) (k : String) :
    dfind d k = none ↔ k ∉ d.map Prod.fst := by
  rw [← dfind_isSome_iff]
  cases dfind d k <;> simp

theorem dset_map_fst {α : Type} (d : List (String × α)) (k : String) (v : α) :
    (dset d k v).map Prod.fst =
      if k ∈ d.map Prod.fst then d.map Prod.fst else d.map Prod.fst ++ [k] := by
  induction d with
  | nil => simp [dset]
  | cons kv t ih =>
    obtain ⟨k1, w⟩ := kv
    by_cases h : k = k1
    · simp [dset, h]
    · by_cases hm : k ∈ t.map Prod.fst <;> simp [dset, h, ih, hm]

theorem dset_of_not_mem {α : Type} {d : List (String × α)} {k : String}
    (v : α) (h : k ∉ d.map Prod.fst) : dset d k v = d ++ [(k, v)] := by
  induction d with
  | nil => simp [dset]
  | cons kv t ih =>
    obtain ⟨k1, w⟩ := kv
    simp only [List.map_cons, List.mem_cons] at h
    push_neg at h
    simp [dset, h.1, ih h.2]

theorem dfind_append_left {α : Type} {d : List (String × α)} {k : String}
    {v : α} (e : List (String × α)) (h : dfind d k = some v) :
    dfind (d ++ e) k = some v := by
  induction d with
  | nil => simp [dfind] at h
  | cons kv t ih =>
    obtain ⟨k1, w⟩ := kv
    by_cases hk : k = k1 <;> simp_all [dfind]

theorem dfind_append_right {α : Type} {d : List (String × α)} {k : String}
    (e : List (String × α)) (h : dfind d k = none) :
    dfind (d ++ e) k = dfind e k := by
  induction d with
  | nil => simp
  | cons kv t ih =>
    obtain ⟨k1, w⟩ := kv
    by_cases hk : k = k1 <;> simp_all [dfind]

theorem dfind_mem {α : Type} {d : List (String × α)} {k : String} {v : α}
    (h : dfind d k = some v) : (k, v) ∈ d := by
  induction d with
  | nil => simp [dfind] at h
  | cons kv t ih =>
    obtain ⟨k1, w⟩ := kv
    by_cases hk : k = k1 <;> simp_all [dfind]

theorem dset_dfind_self {α : Type} {d : List (String × α)} {k : String} {v : α}
    (h : dfind d k = some v) : dset d k v = d := by
  induction d with
  | nil => simp [dfind] at h
  | cons kv t ih =>
    obtain ⟨k1, w⟩ := kv
    by_cases hk : k = k1 <;> simp_all [dfind, dset]

theorem dset_map_fst_of_mem {α : Type} {d : List (String × α)} {k : String}
    (v : α) (h : k ∈ d.map Prod.fst) :
    (dset d k v).map Prod.fst = d.map Prod.fst := by
  rw [dset_map_fst, if_pos h]

/-! ## First-seen order of the key set -/

theorem seenFold_mem_of_mem {p : String} (ps : List String) {acc : List String}
    (h : p ∈ acc) :
    p ∈ ps.foldl (fun a q => if q ∈ a then a else a ++ [q]) acc := by
  induction ps generalizing acc with
  | nil => simpa using h
  | cons q t ih =>
    simp only [List.foldl_cons]
    apply ih
    by_cases hq : q ∈ acc <;> simp [hq, h]

theorem seenFold_mem_of_elem {p : String} {ps : List String} (acc : List String)
    (h : p ∈ ps) :
    p ∈ ps.foldl (fun a q => if q ∈ a then a else a ++ [q]) acc := by
  induction ps generalizing acc with
  | nil => simp at h
  | cons q t ih =>
    simp only [List.foldl_cons]
    rcases List.mem_cons.mp h with rfl | hp
    · apply seenFold_mem_of_mem
      by_cases hq : p ∈ acc <;> simp [hq]
    · exact ih _ hp

theorem seenFold_nodup (ps : List String) {acc : List String} (h : acc.Nodup) :
    (ps.foldl (fun a q => if q ∈ a then a else a ++ [q]) acc).Nodup := by
  induction ps generalizing acc with
  | nil => simpa using h
  | cons q t ih =>
    simp only [List.foldl_cons]
    apply ih
    by_cases hq : q ∈ acc
    · simpa [hq] using h
    · simp only [if_neg hq]
      simp [List.nodup_append, h, hq]

theorem mem_seenStep_of_mem {p : String} {acc : List String} (r : MatchRecord)
    (h : p ∈ acc) : p ∈ seenStep acc r :=
  seenFold_mem_of_mem _ h

theorem mem_seenStep_of_player {p : String} {r : MatchRecord} (acc : List String)
    (h : p ∈ recordPlayers r) : p ∈ seenStep acc r :=
  seenFold_mem_of_elem _ h

theorem initFold_map_fst (mu sigma : ℚ) (ps : List String) :
    ∀ d : List (String × Rating),
      (ps.foldl (initPlayer mu sigma) d).map Prod.fst
        = ps.foldl (fun a q => if q ∈ a then a else a ++ [q]) (d.map Prod.fst) := by
  induction ps with
  | nil => intro d; rfl
  | cons q t ih =>
    intro d
    simp only [List.foldl_cons]
    rw [ih]
    congr 1
    by_cases h : q ∈ d.map Prod.fst <;>
      simp [initPlayer, dfind_isSome_iff, h, dset_of_not_mem]

theorem initPlayers_map_fst (mu sigma : ℚ) (r : MatchRecord)
    (d : List (String × Rating)) :
    (initPlayers mu sigma r d).map Prod.fst = seenStep (d.map Prod.fst) r :=
  initFold_map_fst mu sigma (recordPlayers r) d

theorem dset4_map_fst {α : Type} (d : List (String × α)) {n1 n2 n3 n4 : String}
    (x1 x2 x3 x4 : α) (h1 : n1 ∈ d.map Prod.fst) (h2 : n2 ∈ d.map Prod.fst)
    (h3 : n3 ∈ d.map Prod.fst) (h4 : n4 ∈ d.map Prod.fst) :
    (dset (dset (dset (dset d n1 x1) n2 x2) n3 x3) n4 x4).map Prod.fst
      = d.map Prod.fst := by
  have e1 : (dset d n1 x1).map Prod.fst = d.map Prod.fst :=
    dset_map_fst_of_mem x1 h1
  have e2 : (dset (dset d n1 x1) n2 x2).map Prod.fst = d.map Prod.fst :=
    (dset_map_fst_of_mem x2 (by rw [e1]; exact h2)).trans e1
  have e3 : (dset (dset (dset d n1 x1) n2 x2) n3 x3).map Prod.fst
      = d.map Prod.fst :=
    (dset_map_fst_of_mem x3 (by rw [e2]; exact h3)).trans e2
  exact (dset_map_fst_of_mem x4 (by rw [e3]; exact h4)).trans e3

theorem gameStep_map_fst (rate : RateFn) (r : MatchRecord) (w : Bool)
    (d : List (String × Rating))
    (h : ∀ p ∈ recordPlayers r, p ∈ d.map Prod.fst) :
    (gameStep rate r w d).map Prod.fst = d.map Prod.fst := by
  have h1 := h r.team_1_player_left (by simp [recordPlayers])
  have h2 := h r.team_1_player_right (by simp [recordPlayers])
  have h3 := h r.team_2_player_left (by simp [recordPlayers])
  have h4 := h r.team_2_player_right (by simp [recordPlayers])
  simp only [gameStep]
  exact dset4_map_fst d _ _ _ _ h1 h2 h3 h4

theorem gameFold_map_fst (rate : RateFn) (r : MatchRecord) (w : Bool) :
    ∀ (n : ℕ) (d : List (String × Rating)),
      (∀ p ∈ recordPlayers r, p ∈ d.map Prod.fst) →
      ((List.range n).foldl (fun acc _ => gameStep rate r w acc) d).map Prod.fst
        = d.map Prod.fst := by
  intro n
  induction n with
  | zero => intro d _; rfl
  | succ m ih =>
    intro d h
    rw [List.range_succ, List.foldl_append]
    simp only [List.foldl_cons, List.foldl_nil]
    rw [gameStep_map_fst rate r w _ (by intro p hp; rw [ih d h]; exact h p hp),
      ih d h]

theorem processRecord_map_fst (rate : RateFn) (mu sigma : ℚ)
    (d : List (String × Rating)) (r : MatchRecord) :
    (processRecord rate mu sigma d r).map Prod.fst = seenStep (d.map Prod.fst) r := by
  have hmem : ∀ p ∈ recordPlayers r, p ∈ (initPlayers mu sigma r d).map Prod.fst := by
    intro p hp
    rw [initPlayers_map_fst]
    exact mem_seenStep_of_player _ hp
  have h1 := gameFold_map_fst rate r true r.team_1_score (initPlayers mu sigma r d)
    hmem
  have hmem2 : ∀ p ∈ recordPlayers r,
      p ∈ (((List.range r.team_1_score).foldl
        (fun acc _ => gameStep rate r true acc)
        (initPlayers mu sigma r d))).map Prod.fst := by
    intro p hp
    rw [h1]
    exact hmem p hp
  have h2 := gameFold_map_fst rate r false r.team_2_score _ hmem2
  simp only [processRecord]
  rw [h2, h1, initPlayers_map_fst]

theorem ratingsFold_map_fst (rate : RateFn) (mu sigma : ℚ) :
    ∀ (df : List MatchRecord) (d : List (String × Rating)),
      (df.foldl (processRecord rate mu sigma) d).map Prod.fst
        = df.foldl seenStep (d.map Prod.fst) := by
  intro df
  induction df with
  | nil => intro d; rfl
  | cons r t ih =>
    intro d
    simp only [List.foldl_cons]
    rw [ih, processRecord_map_fst]

theorem finalRatings_map_fst (rate : RateFn) (df : List MatchRecord)
    (mu sigma : ℚ) :
    (finalRatings rate df mu sigma).map Prod.fst = firstSeen df := by
  rw [finalRatings, ratingsFold_map_fst]
  rfl

theorem seenStep_nodup {acc : List String} (r : MatchRecord) (h : acc.Nodup) :
    (seenStep acc r).Nodup :=
  seenFold_nodup _ h

theorem firstSeen_nodup (df : List MatchRecord) : (firstSeen df).Nodup := by
  have key : ∀ (t : List MatchRecord) (acc : List String), acc.Nodup →
      (t.foldl seenStep acc).Nodup := by
    intro t
    induction t with
    | nil => intro acc h; simpa using h
    | cons r u ih =>
      intro acc h
      simp only [List.foldl_cons]
      exact ih _ (seenStep_nodup r h)
  exact key df ["Charlie"] (by simp)

/-! ## Update-count accounting -/

theorem countFold_eq {α : Type} (f : α → α) :
    ∀ (n : ℕ) (d : α) (c : ℕ),
      (List.range n).foldl (fun acc _ => (f acc.1, acc.2 + 1)) (d, c)
        = ((List.range n).foldl (fun acc _ => f acc) d, c + n) := by
  intro n
  induction n with
  | zero => intro d c; rfl
  | succ m ih =>
    intro d c
    rw [List.range_succ, List.foldl_append, List.foldl_append, ih]
    simp [Nat.add_assoc]

theorem processRecordCounted_eq (rate : RateFn) (mu sigma : ℚ)
    (d : List (String × Rating)) (c : ℕ) (r : MatchRecord) :
    processRecordCounted rate mu sigma (d, c) r
      = (processRecord rate mu sigma d r,
          c + (r.team_1_score + r.team_2_score)) := by
  simp only [processRecordCounted, processRecord]
  rw [countFold_eq, countFold_eq]
  simp [Nat.add_assoc]

theorem countedFold_run (rate : RateFn) (mu sigma : ℚ) :
    ∀ (df : List MatchRecord) (d : List (String × Rating)) (c : ℕ),
      df.foldl (processRecordCounted rate mu sigma) (d, c)
        = (df.foldl (processRecord rate mu sigma) d,
            c + (df.map fun r => r.team_1_score + r.team_2_score).sum) := by
  intro df
  induction df with
  | nil => intro d c; simp
  | cons r t ih =>
    intro d c
    simp only [List.foldl_cons]
    rw [processRecordCounted_eq, ih]
    simp [Nat.add_assoc]

theorem finalRatingsCounted_eq (rate : RateFn) (df : List MatchRecord)
    (mu sigma : ℚ) :
    finalRatingsCounted rate df mu sigma
      = (finalRatings rate df mu sigma,
          (df.map fun r => r.team_1_score + r.team_2_score).sum) := by
  rw [finalRatingsCounted, finalRatings, countedFold_run]
  simp

/-! ## Tier assignment: positional characterization -/

theorem nameAt_eq_getD (s : List (String × ℚ)) (i : ℕ) :
    nameAt s i = (s.map Prod.fst).getD i "" :=
  (List.getD_map s ("", 0) Prod.fst).symm

theorem nameAt_inj {s : List (String × ℚ)} (h : (s.map Prod.fst).Nodup)
    {i j : ℕ} (hi : i < s.length) (hj : j < s.length)
    (he : nameAt s i = nameAt s j) : i = j := by
  have hi1 : i < (s.map Prod.fst).length := by simpa using hi
  have hj1 : j < (s.map Prod.fst).length := by simpa using hj
  rw [nameAt_eq_getD, nameAt_eq_getD, List.getD_eq_getElem _ _ hi1,
    List.getD_eq_getElem _ _ hj1] at he
  exact (h.getElem_inj_iff).mp he

theorem nameAt_not_mem {s : List (String × ℚ)} (h : (s.map Prod.fst).Nodup)
    {m : ℕ} (hm : m < s.length) :
    nameAt s m ∉ (List.range' 0 m).map (nameAt s) := by
  simp only [List.mem_map, List.mem_range']
  rintro ⟨j, ⟨k, hk, rfl⟩, he⟩
  have := nameAt_inj h (by omega) hm he
  omega

theorem band_keys (s : List (String × ℚ)) (label : String)
    {t : List (String × String)} {i : ℕ} (c : ℕ)
    (ht : t.map Prod.fst = (List.range' 0 i).map (nameAt s)) :
    (t ++ (List.range' i c).map (fun j => (nameAt s j, label))).map Prod.fst
      = (List.range' 0 (i + c)).map (nameAt s) := by
  rw [List.map_append, ht, List.map_map]
  have h2 : (Prod.fst ∘ fun j => (nameAt s j, label)) = nameAt s := rfl
  rw [h2, ← List.map_append]
  congr 1
  simpa [Nat.add_comm] using List.range'_append_1 0 i c

theorem assignBand_eq (s : List (String × ℚ)) (label : String)
    (h : (s.map Prod.fst).Nodup) :
    ∀ (count : ℕ) (t : List (String × String)) (i : ℕ),
      i + count ≤ s.length →
      t.map Prod.fst = (List.range' 0 i).map (nameAt s) →
      assignBand s label count (t, i)
        = (t ++ (List.range' i count).map (fun j => (nameAt s j, label)),
            i + count) := by
  intro count
  induction count with
  | zero => intro t i hle ht; simp [assignBand]
  | succ m ih =>
    intro t i hle ht
    rw [assignBand, List.range_succ, List.foldl_append]
    rw [show (List.range m).foldl
        (fun a _ => if a.2 < s.length
          then (dset a.1 (nameAt s a.2) label, a.2 + 1) else a) (t, i)
        = assignBand s label m (t, i) from rfl]
    rw [ih t i (by omega) ht]
    simp only [List.foldl_cons, List.foldl_nil]
    rw [if_pos (show i + m < s.length by omega)]
    have hkeys := band_keys s label m ht
    rw [dset_of_not_mem _ (by rw [hkeys]; exact nameAt_not_mem h (by omega))]
    rw [List.range'_concat]
    simp [Nat.add_assoc]

theorem titleAt_crown (n : ℕ) : titleAt n 0 = crown := by
  rw [titleAt, if_pos rfl]

theorem titleAt_diamond {n j : ℕ} (h0 : j ≠ 0) (h3 : j < 3) :
    titleAt n j = diamond := by
  rw [titleAt, if_neg h0, if_pos h3]

theorem titleAt_gold {n j : ℕ} (h3 : 3 ≤ j) (hj : j < 3 + (n - 3) / 3) :
    titleAt n j = goldMedal := by
  rw [titleAt, if_neg (by omega), if_neg (by omega), if_pos hj]

theorem titleAt_silver {n j : ℕ} (h3 : 3 + (n - 3) / 3 ≤ j)
    (hj : j < 3 + (n - 3) / 3
        + ((n - 3) / 3 + if (n - 3) % 3 ≥ 2 then 1 else 0)) :
    titleAt n j = silverMedal := by
  rw [titleAt, if_neg (by omega), if_neg (by omega),
    if_neg (Nat.not_lt.mpr h3), if_pos hj]

theorem titleAt_bronze {n j : ℕ}
    (hj : 3 + (n - 3) / 3 + ((n - 3) / 3 + if (n - 3) % 3 ≥ 2 then 1 else 0)
        ≤ j) :
    titleAt n j = bronzeMedal := by
  have h3 : 3 ≤ j :=
    le_trans (le_trans (Nat.le_add_right 3 _) (Nat.le_add_right _ _)) hj
  have hg : 3 + (n - 3) / 3 ≤ j :=
    le_trans (Nat.le_add_right _ _) hj
  rw [titleAt, if_neg (by omega), if_neg (by omega),
    if_neg (Nat.not_lt.mpr hg), if_neg (Nat.not_lt.mpr hj)]

theorem range'_split {s m a b : ℕ} (hab : a + b = m) :
    List.range' s m = List.range' s a ++ List.range' (s + a) b := by
  have h1 := (List.range'_append_1 s a b).symm
  rw [show m = b + a by omega]
  exact h1

theorem titleAt_gold2 {n j g : ℕ} (hg : g = (n - 3) / 3) (h3 : 3 ≤ j)
    (hj : j < 3 + g) : titleAt n j = goldMedal := by
  subst hg
  exact titleAt_gold h3 hj

theorem titleAt_silver2 {n j g sc : ℕ} (hg : g = (n - 3) / 3)
    (hsc : sc = (n - 3) / 3 + if (n - 3) % 3 ≥ 2 then 1 else 0)
    (h3 : 3 + g ≤ j) (hj : j < 3 + g + sc) : titleAt n j = silverMedal := by
  subst hg
  subst hsc
  exact titleAt_silver h3 hj

theorem titleAt_bronze2 {n j g sc : ℕ} (hg : g = (n - 3) / 3)
    (hsc : sc = (n - 3) / 3 + if (n - 3) % 3 ≥ 2 then 1 else 0)
    (hj : 3 + g + sc ≤ j) : titleAt n j = bronzeMedal := by
  subst hg
  subst hsc
  exact titleAt_bronze hj

theorem dset_firstThree {s : List (String × ℚ)} (h : (s.map Prod.fst).Nodup)
    (h3 : 3 ≤ s.length) :
    dset (dset (dset [] (nameAt s 0) crown) (nameAt s 1) diamond)
        (nameAt s 2) diamond
      = [(nameAt s 0, crown), (nameAt s 1, diamond), (nameAt s 2, diamond)] := by
  have h10 : ¬ nameAt s 1 = nameAt s 0 := fun e => by
    have := nameAt_inj h (by omega) (by omega) e
    omega
  have h20 : ¬ nameAt s 2 = nameAt s 0 := fun e => by
    have := nameAt_inj h (by omega) (by omega) e
    omega
  have h21 : ¬ nameAt s 2 = nameAt s 1 := fun e => by
    have := nameAt_inj h (by omega) (by omega) e
    omega
  simp [dset, h10, h20, h21]

/-- `assign_titles` on a duplicate-free ranking assigns rank `i` the label
`titleAt n i`, one entry per rank in rank order. -/
theorem assign_titles_eq (s : List (String × ℚ)) (h : (s.map Prod.fst).Nodup) :
    assign_titles s
      = (List.range s.length).map (fun i => (nameAt s i, titleAt s.length i)) := by
  rcases Nat.lt_or_ge s.length 4 with hsmall | hbig
  · have hcases : s.length = 0 ∨ s.length = 1 ∨ s.length = 2 ∨ s.length = 3 := by
      omega
    rcases hcases with hlen | hlen | hlen | hlen
    · rw [List.length_eq_zero] at hlen
      subst hlen
      rfl
    · simp [assign_titles, hlen, dset, List.range_succ, titleAt]
    · have h10 : ¬ nameAt s 1 = nameAt s 0 := fun e => by
        have := nameAt_inj h (by omega) (by omega) e
        omega
      simp [assign_titles, hlen, dset, List.range_succ, titleAt, h10]
    · have h10 : ¬ nameAt s 1 = nameAt s 0 := fun e => by
        have := nameAt_inj h (by omega) (by omega) e
        omega
      have h20 : ¬ nameAt s 2 = nameAt s 0 := fun e => by
        have := nameAt_inj h (by omega) (by omega) e
        omega
      have h21 : ¬ nameAt s 2 = nameAt s 1 := fun e => by
        have := nameAt_inj h (by omega) (by omega) e
        omega
      simp [assign_titles, hlen, dset, List.range_succ, titleAt, h10, h20, h21]
  · have hne : ¬ s.length = 0 := by omega
    have c1 : s.length ≥ 1 := by omega
    have c2 : s.length ≥ 2 := by omega
    have c3 : s.length ≥ 3 := by omega
    have c4 : s.length - 3 > 0 := by omega
    simp only [assign_titles]
    rw [if_neg hne, if_pos c1, if_pos c2, if_pos c3, if_pos c4]
    rw [dset_firstThree h (by omega)]
    have hkeys0 : ([(nameAt s 0, crown), (nameAt s 1, diamond),
          (nameAt s 2, diamond)] : List (String × String)).map Prod.fst
        = (List.range' 0 3).map (nameAt s) := rfl
    have hmlt : (s.length - 3) % 3 < 3 := Nat.mod_lt _ (by omega)
    generalize hg : (s.length - 3) / 3 = g
    generalize hm : (s.length - 3) % 3 = m
    rw [hm] at hmlt
    have hee : (if m ≥ 2 then 1 else 0) + (if m ≥ 1 then 1 else 0) = m := by
      by_cases h2 : m ≥ 2 <;> by_cases h1 : m ≥ 1 <;> simp [h1, h2] <;> omega
    have h3g : 3 * g + m = s.length - 3 := by
      rw [← hg, ← hm]
      omega
    generalize he2 : (if m ≥ 2 then 1 else 0) = e2
    generalize he1 : (if m ≥ 1 then 1 else 0) = e1
    rw [he2, he1] at hee
    have hscEq : g + e2 = (s.length - 3) / 3
        + if (s.length - 3) % 3 ≥ 2 then 1 else 0 := by
      rw [hg, hm, he2]
    rw [assignBand_eq s goldMedal h g
      [(nameAt s 0, crown), (nameAt s 1, diamond), (nameAt s 2, diamond)] 3
      (by omega) hkeys0]
    rw [assignBand_eq s silverMedal h (g + e2)
      ([(nameAt s 0, crown), (nameAt s 1, diamond), (nameAt s 2, diamond)]
        ++ (List.range' 3 g).map (fun j => (nameAt s j, goldMedal)))
      (3 + g) (by omega) (band_keys s goldMedal g hkeys0)]
    rw [assignBand_eq s bronzeMedal h (g + e1)
      (([(nameAt s 0, crown), (nameAt s 1, diamond), (nameAt s 2, diamond)]
        ++ (List.range' 3 g).map (fun j => (nameAt s j, goldMedal)))
        ++ (List.range' (3 + g) (g + e2)).map
          (fun j => (nameAt s j, silverMedal)))
      (3 + g + (g + e2)) (by omega)
      (band_keys s silverMedal (g + e2) (band_keys s goldMedal g hkeys0))]
    rw [List.range_eq_range',
      range'_split (show 3 + (g + ((g + e2) + (g + e1))) = s.length by omega)]
    simp only [Nat.zero_add]
    rw [range'_split
        (rfl : g + ((g + e2) + (g + e1)) = g + ((g + e2) + (g + e1))),
      range'_split (rfl : (g + e2) + (g + e1) = (g + e2) + (g + e1))]
    have seg0 : (List.range' 0 3).map
          (fun i => (nameAt s i, titleAt s.length i))
        = [(nameAt s 0, crown), (nameAt s 1, diamond), (nameAt s 2, diamond)] := by
      simp [show List.range' 0 3 = [0, 1, 2] from rfl, titleAt_crown,
        titleAt_diamond (by omega : (1:ℕ) ≠ 0) (by omega),
        titleAt_diamond (by omega : (2:ℕ) ≠ 0) (by omega)]
    have segG : (List.range' 3 g).map
          (fun i => (nameAt s i, titleAt s.length i))
        = (List.range' 3 g).map (fun j => (nameAt s j, goldMedal)) := by
      apply List.map_congr_left
      intro j hj
      rw [List.mem_range'] at hj
      obtain ⟨k, hk, rfl⟩ := hj
      rw [titleAt_gold2 hg.symm (by omega) (by omega)]
    have segS : (List.range' (3 + g) (g + e2)).map
          (fun i => (nameAt s i, titleAt s.length i))
        = (List.range' (3 + g) (g + e2)).map
          (fun j => (nameAt s j, silverMedal)) := by
      apply List.map_congr_left
      intro j hj
      rw [List.mem_range'] at hj
      obtain ⟨k, hk, rfl⟩ := hj
      rw [titleAt_silver2 hg.symm hscEq (by omega) (by omega)]
    have segB : (List.range' (3 + g + (g + e2)) (g + e1)).map
          (fun i => (nameAt s i, titleAt s.length i))
        = (List.range' (3 + g + (g + e2)) (g + e1)).map
          (fun j => (nameAt s j, bronzeMedal)) := by
      apply List.map_congr_left
      intro j hj
      rw [List.mem_range'] at hj
      obtain ⟨k, hk, rfl⟩ := hj
      rw [titleAt_bronze2 hg.symm hscEq (by omega)]
    simp only [List.map_append, seg0, segG, segS, segB, List.append_assoc]

/-! ## Remaining supporting lemmas -/

theorem map_getD_range {α : Type} (l : List α) (d : α) :
    (List.range l.length).map (fun i => l.getD i d) = l := by
  induction l with
  | nil => rfl
  | cons a t ih =>
    rw [List.length_cons, List.range_succ_eq_map, List.map_cons, List.map_map]
    simp only [Function.comp_def, Nat.succ_eq_add_one, List.getD_cons_succ,
      List.getD_cons_zero]
    rw [ih]

theorem range_map_nameAt (s : List (String × ℚ)) :
    (List.range s.length).map (nameAt s) = s.map Prod.fst := by
  have h1 : (List.range (s.map Prod.fst).length).map
      (fun i => (s.map Prod.fst).getD i "") = s.map Prod.fst :=
    map_getD_range _ _
  rw [List.length_map] at h1
  calc (List.range s.length).map (nameAt s)
      = (List.range s.length).map (fun i => (s.map Prod.fst).getD i "") := by
        apply List.map_congr_left
        intro i _
        exact nameAt_eq_getD s i
    _ = s.map Prod.fst := h1

theorem dfind_range_map {β : Type} (s : List (String × ℚ))
    (h : (s.map Prod.fst).Nodup) (lab : ℕ → β) :
    ∀ (n : ℕ), n ≤ s.length → ∀ i, i < n →
      dfind ((List.range n).map (fun j => (nameAt s j, lab j))) (nameAt s i)
        = some (lab i) := by
  intro n
  induction n with
  | zero => intro _ i hi; exact absurd hi (Nat.not_lt_zero i)
  | succ m ih =>
    intro hn i hi
    rw [List.range_succ, List.map_append]
    rcases Nat.lt_or_ge i m with him | him
    · exact dfind_append_left _ (ih (by omega) i him)
    · have hieq : i = m := by omega
      subst hieq
      have hnone : dfind ((List.range i).map fun j => (nameAt s j, lab j))
          (nameAt s i) = none := by
        rw [dfind_eq_none_iff, List.map_map]
        intro hmem
        simp only [List.mem_map, Function.comp, List.mem_range] at hmem
        obtain ⟨j, hj, he⟩ := hmem
        have := nameAt_inj h (by omega) (by omega) he
        omega
      rw [dfind_append_right _ hnone]
      simp [dfind]

theorem dfind_assign_titles (s : List (String × ℚ))
    (h : (s.map Prod.fst).Nodup) {i : ℕ} (hi : i < s.length) :
    dfind (assign_titles s) (nameAt s i) = some (titleAt s.length i) := by
  rw [assign_titles_eq s h]
  exact dfind_range_map s h (titleAt s.length) s.length le_rfl i hi

theorem initPlayer_dfind_mono (mu sigma : ℚ) {d : List (String × Rating)}
    {p : String} {v : Rating} (q : String) (h : dfind d p = some v) :
    dfind (initPlayer mu sigma d q) p = some v := by
  rw [initPlayer]
  split
  · exact h
  · next hq =>
    rw [dset_of_not_mem]
    · exact dfind_append_left _ h
    · intro hmem
      rw [← dfind_isSome_iff] at hmem
      simp_all

theorem initFold_dfind_mono (mu sigma : ℚ) (ps : List String) :
    ∀ (d : List (String × Rating)) (p : String) (v : Rating),
      dfind d p = some v →
      dfind (ps.foldl (initPlayer mu sigma) d) p = some v := by
  induction ps with
  | nil => intro d p v h; exact h
  | cons q t ih =>
    intro d p v h
    exact ih _ _ _ (initPlayer_dfind_mono mu sigma q h)

theorem seenRun_mono {p : String} (t : List MatchRecord) :
    ∀ acc, p ∈ acc → p ∈ t.foldl seenStep acc := by
  induction t with
  | nil => intro acc h; simpa using h
  | cons r u ih =>
    intro acc h
    exact ih _ (mem_seenStep_of_mem r h)

theorem mem_firstSeen_of_record {df : List MatchRecord} {r : MatchRecord}
    {p : String} (hr : r ∈ df) (hp : p ∈ recordPlayers r) :
    p ∈ firstSeen df := by
  have key : ∀ (t : List MatchRecord) (acc : List String), r ∈ t →
      p ∈ t.foldl seenStep acc := by
    intro t
    induction t with
    | nil => intro acc h0; simp at h0
    | cons r0 u ih =>
      intro acc hr0
      rcases List.mem_cons.mp hr0 with rfl | hru
      · exact seenRun_mono u _ (mem_seenStep_of_player _ hp)
      · exact ih _ hru
  exact key df _ hr

theorem mem_calculate_names (rate : RateFn) (df : List MatchRecord)
    (mu sigma : ℚ) (p : String) :
    p ∈ (calculate_team_trueskill rate df mu sigma).map Prod.fst
      ↔ p ∈ firstSeen df := by
  rw [← finalRatings_map_fst rate df mu sigma]
  simp only [calculate_team_trueskill, List.mem_map]
  constructor
  · rintro ⟨x, hx, rfl⟩
    rw [List.mem_insertionSort, List.mem_map] at hx
    obtain ⟨nr, hnr, rfl⟩ := hx
    exact ⟨nr, hnr, rfl⟩
  · rintro ⟨nr, hnr, rfl⟩
    exact ⟨(nr.1, round2 nr.2.mu),
      (List.mem_insertionSort rankGE).mpr (List.mem_map.mpr ⟨nr, hnr, rfl⟩), rfl⟩

theorem round2_charlie : round2 (5.25 : ℚ) = 5.25 := by
  rw [round2, show (5.25 : ℚ) * 100 = ((525 : ℤ) : ℚ) by norm_num,
    round_intCast]
  norm_num

/-! ## Claims -/

/-- C1: every match record with scores `s1`, `s2` is processed, in input
order, by exactly `s1` pairwise update steps with team 1 as winner followed
by `s2` steps with team 2 as winner, each step applied to the state produced
by the immediately preceding step (function iteration), after ensuring all
four players have belief entries. -/
theorem c1_score_expansion (rate : RateFn) (mu sigma : ℚ)
    (df : List MatchRecord) (d : List (String × Rating)) (r : MatchRecord) :
    finalRatings rate (df ++ [r]) mu sigma
        = processRecord rate mu sigma (finalRatings rate df mu sigma) r
    ∧ processRecord rate mu sigma d r
        = (gameStep rate r false)^[r.team_2_score]
            ((gameStep rate r true)^[r.team_1_score]
              (initPlayers mu sigma r d)) := by
  constructor
  · rw [finalRatings, finalRatings, List.foldl_append]
    rfl
  · simp only [processRecord]
    rw [foldl_const, foldl_const, List.length_range, List.length_range]

/-- C2: for rankings with more than 3 players (duplicate-free names), the
remainder after the top three is split into contiguous Gold, Silver, Bronze
bands of sizes `base`, `base + (1 if rem ≥ 2)`, `base + (1 if rem ≥ 1)`
assigned in that order from rank 3 onward. -/
theorem c2_tier_band_sizes (s : List (String × ℚ))
    (h : (s.map Prod.fst).Nodup) (hlen : 3 < s.length) (i : ℕ) :
    (3 ≤ i → i < 3 + (s.length - 3) / 3 →
      dfind (assign_titles s) (nameAt s i) = some goldMedal)
    ∧ (3 + (s.length - 3) / 3 ≤ i →
        i < 3 + (s.length - 3) / 3
          + ((s.length - 3) / 3 + if (s.length - 3) % 3 ≥ 2 then 1 else 0) →
      dfind (assign_titles s) (nameAt s i) = some silverMedal)
    ∧ (3 + (s.length - 3) / 3
          + ((s.length - 3) / 3 + if (s.length - 3) % 3 ≥ 2 then 1 else 0)
          ≤ i →
        i < s.length →
      dfind (assign_titles s) (nameAt s i) = some bronzeMedal) := by
  have hub : 3 + (s.length - 3) / 3
      + ((s.length - 3) / 3 + if (s.length - 3) % 3 ≥ 2 then 1 else 0)
      ≤ s.length := by
    by_cases he : (s.length - 3) % 3 ≥ 2 <;> simp [he] <;> omega
  refine ⟨fun h1 h2 => ?_, fun h1 h2 => ?_, fun h1 h2 => ?_⟩
  · rw [dfind_assign_titles s h (by omega), titleAt_gold h1 h2]
  · rw [dfind_assign_titles s h (by omega), titleAt_silver h1 h2]
  · rw [dfind_assign_titles s h h2, titleAt_bronze h1]

/-- C2 witness: for a concrete 10-player ranking, ranks 3–4 are Gold,
5–6 Silver, 7–9 Bronze. -/
theorem c2_witness :
    dfind (assign_titles exRanking10) (nameAt exRanking10 3) = some goldMedal
    ∧ dfind (assign_titles exRanking10) (nameAt exRanking10 4) = some goldMedal
    ∧ dfind (assign_titles exRanking10) (nameAt exRanking10 5) = some silverMedal
    ∧ dfind (assign_titles exRanking10) (nameAt exRanking10 6) = some silverMedal
    ∧ dfind (assign_titles exRanking10) (nameAt exRanking10 7) = some bronzeMedal
    ∧ dfind (assign_titles exRanking10) (nameAt exRanking10 8) = some bronzeMedal
    ∧ dfind (assign_titles exRanking10) (nameAt exRanking10 9) = some bronzeMedal :=
  ⟨(c2_tier_band_sizes exRanking10 (by decide) (by decide) 3).1
      (by decide) (by decide),
    (c2_tier_band_sizes exRanking10 (by decide) (by decide) 4).1
      (by decide) (by decide),
    (c2_tier_band_sizes exRanking10 (by decide) (by decide) 5).2.1
      (by decide) (by decide),
    (c2_tier_band_sizes exRanking10 (by decide) (by decide) 6).2.1
      (by decide) (by decide),
    (c2_tier_band_sizes exRanking10 (by decide) (by decide) 7).2.2
      (by decide) (by decide),
    (c2_tier_band_sizes exRanking10 (by decide) (by decide) 8).2.2
      (by decide) (by decide),
    (c2_tier_band_sizes exRanking10 (by decide) (by decide) 9).2.2
      (by decide) (by decide)⟩

/-- C3: on a duplicate-free ranking, the tier mapping's key list is exactly
the ranking's player list (so the key set matches, with no omissions and no
duplicates — each player gets exactly one tier), and the empty ranking
yields the empty mapping. -/
theorem c3_tier_completeness (s : List (String × ℚ))
    (h : (s.map Prod.fst).Nodup) :
    (assign_titles s).map Prod.fst = s.map Prod.fst
    ∧ ((assign_titles s).map Prod.fst).Nodup
    ∧ assign_titles ([] : List (String × ℚ)) = [] := by
  have hk : (assign_titles s).map Prod.fst = s.map Prod.fst := by
    rw [assign_titles_eq s h, List.map_map]
    rw [show (Prod.fst ∘ fun i => (nameAt s i, titleAt s.length i))
        = nameAt s from rfl]
    exact range_map_nameAt s
  refine ⟨hk, ?_, rfl⟩
  rw [hk]
  exact h

/-- C3 witness: concrete 4-player ranking. -/
theorem c3_witness :
    (assign_titles exRanking4).map Prod.fst = exRanking4.map Prod.fst
    ∧ ((assign_titles exRanking4).map Prod.fst).Nodup
    ∧ assign_titles ([] : List (String × ℚ)) = [] :=
  c3_tier_completeness exRanking4 (by decide)

/-- C4: the belief mapping starts with exactly the seeded entry
`("Charlie", (5.25, priorUncertainty))`; a player already present is never
re-initialized while an absent player is appended with the priors; and the
final mapping's keys are exactly the first-seen scan order (matches in input
order, team 1 before team 2, left before right). -/
theorem c4_initialization (rate : RateFn) (df : List MatchRecord)
    (mu sigma : ℚ) :
    initialRatings sigma = [("Charlie", ⟨5.25, sigma⟩)]
    ∧ (∀ (d : List (String × Rating)) (p : String),
        (p ∈ d.map Prod.fst → initPlayer mu sigma d p = d)
        ∧ (p ∉ d.map Prod.fst →
            initPlayer mu sigma d p = d ++ [(p, ⟨mu, sigma⟩)]))
    ∧ (finalRatings rate df mu sigma).map Prod.fst = firstSeen df := by
  refine ⟨rfl, ?_, finalRatings_map_fst rate df mu sigma⟩
  intro d p
  constructor
  · intro hp
    rw [initPlayer, if_pos ((dfind_isSome_iff d p).mpr hp)]
  · intro hp
    rw [initPlayer, if_neg (fun hs => hp ((dfind_isSome_iff d p).mp hs)),
      dset_of_not_mem _ hp]

/-- C4 witness: a fresh player is appended with the priors. -/
theorem c4_witness :
    initPlayer 4 1 [("Alice", ⟨4, 1⟩)] "Bob"
      = [("Alice", ⟨4, 1⟩), ("Bob", ⟨4, 1⟩)] :=
  ((c4_initialization exRate [] 4 1).2.1 [("Alice", ⟨4, 1⟩)] "Bob").2
    (by decide)

/-- C5: the empty match list yields the ranking `[("Charlie", 5.25)]` and
its tier assignment maps Charlie to Challenger and nothing else. -/
theorem c5_empty_input (rate : RateFn) (mu sigma : ℚ) :
    calculate_team_trueskill rate [] mu sigma = [("Charlie", 5.25)]
    ∧ assign_titles [("Charlie", 5.25)] = [("Charlie", crown)] := by
  constructor
  · simp only [calculate_team_trueskill, finalRatings, List.foldl_nil,
      initialRatings, List.map_cons, List.map_nil]
    rw [round2_charlie]
    rfl
  · simp [assign_titles, dset, nameAt]

/-- C6: the returned ranking is a permutation of the final belief mapping
with each mean rounded to 2 decimal places, and is sorted descending by
that rounded value. -/
theorem c6_finalization (rate : RateFn) (df : List MatchRecord)
    (mu sigma : ℚ) :
    (calculate_team_trueskill rate df mu sigma).Perm
        ((finalRatings rate df mu sigma).map
          (fun nr => (nr.1, round2 nr.2.mu)))
    ∧ List.Sorted rankGE (calculate_team_trueskill rate df mu sigma) := by
  constructor
  · simp only [calculate_team_trueskill]
    exact List.perm_insertionSort rankGE _
  · simp only [calculate_team_trueskill]
    exact List.sorted_insertionSort rankGE _

/-- C7: the (total) engine instrumented with an update counter computes the
same belief mapping, and the number of pairwise update invocations over the
whole run equals the sum of `team_1_score + team_2_score` over all records. -/
theorem c7_total_updates (rate : RateFn) (df : List MatchRecord)
    (mu sigma : ℚ) :
    (finalRatingsCounted rate df mu sigma).1 = finalRatings rate df mu sigma
    ∧ (finalRatingsCounted rate df mu sigma).2
        = (df.map fun r => r.team_1_score + r.team_2_score).sum := by
  rw [finalRatingsCounted_eq]
  exact ⟨rfl, rfl⟩

/-- C8: a 0–0 record performs no update steps (processing it is exactly
player initialization), leaves every existing belief unchanged, and still
makes the record's players appear in the final ranking. -/
theorem c8_zero_score (rate : RateFn) (mu sigma : ℚ)
    (d : List (String × Rating)) (r : MatchRecord) (df : List MatchRecord)
    (h1 : r.team_1_score = 0) (h2 : r.team_2_score = 0) :
    processRecord rate mu sigma d r = initPlayers mu sigma r d
    ∧ (∀ p v, dfind d p = some v →
        dfind (processRecord rate mu sigma d r) p = some v)
    ∧ (∀ p, p ∈ recordPlayers r → r ∈ df →
        p ∈ (calculate_team_trueskill rate df mu sigma).map Prod.fst) := by
  have hpr : processRecord rate mu sigma d r = initPlayers mu sigma r d := by
    simp only [processRecord, h1, h2, List.range_zero, List.foldl_nil]
  refine ⟨hpr, ?_, ?_⟩
  · intro p v hv
    rw [hpr]
    exact initFold_dfind_mono mu sigma _ d p v hv
  · intro p hp hr
    exact (mem_calculate_names rate df mu sigma p).mpr
      (mem_firstSeen_of_record hr hp)

/-- C8 witness: concrete 0–0 record. -/
theorem c8_witness :
    processRecord exRate 4 1 [] exRecord00 = initPlayers 4 1 exRecord00 []
    ∧ (∀ p v, dfind ([] : List (String × Rating)) p = some v →
        dfind (processRecord exRate 4 1 [] exRecord00) p = some v)
    ∧ (∀ p, p ∈ recordPlayers exRecord00 → exRecord00 ∈ [exRecord00] →
        p ∈ (calculate_team_trueskill exRate [exRecord00] 4 1).map
          Prod.fst) :=
  c8_zero_score exRate 4 1 [] exRecord00 [exRecord00] rfl rfl

/-- C9: a record in which some identifier occupies more than one of the
four player slots (any pair of slots, including across teams) is processed
without error: after initialization every slot's lookup succeeds, two slot
positions with the same identifier exist, every update reads the very same
belief value for any two slots sharing an identifier (in every intermediate
state), and the mapping still keeps a single entry per identifier. -/
theorem c9_duplicate_slots (rate : RateFn) (mu sigma : ℚ)
    (d : List (String × Rating)) (r : MatchRecord)
    (hdup : ¬ (recordPlayers r).Nodup) :
    (∀ p ∈ recordPlayers r, (dfind (initPlayers mu sigma r d) p).isSome)
    ∧ (∃ i j : ℕ, i < 4 ∧ j < 4 ∧ i ≠ j
        ∧ (recordPlayers r).getD i "" = (recordPlayers r).getD j "")
    ∧ (∀ (e : List (String × Rating)) (i j : ℕ),
        (recordPlayers r).getD i "" = (recordPlayers r).getD j "" →
        dgetD e ((recordPlayers r).getD i "") defaultRating
          = dgetD e ((recordPlayers r).getD j "") defaultRating)
    ∧ ((d.map Prod.fst).Nodup →
        ((processRecord rate mu sigma d r).map Prod.fst).Nodup) := by
  refine ⟨?_, ?_, ?_, ?_⟩
  · intro p hp
    rw [dfind_isSome_iff, initPlayers_map_fst]
    exact mem_seenStep_of_player _ hp
  · rw [List.nodup_iff_getElem?_ne_getElem?] at hdup
    push_neg at hdup
    obtain ⟨i, j, hij, hj, he⟩ := hdup
    have hlen : (recordPlayers r).length = 4 := rfl
    refine ⟨i, j, by omega, by omega, by omega, ?_⟩
    rw [List.getD_eq_getD_get?, List.getD_eq_getD_get?,
      List.get?_eq_getElem?, List.get?_eq_getElem?, he]
  · intro e i j he
    rw [he]
  · intro hd
    rw [processRecord_map_fst]
    exact seenStep_nodup r hd

/-- C9 witness: concrete record with "Alice" in two slots. -/
theorem c9_witness :
    (∀ p ∈ recordPlayers exRecordDup,
      (dfind (initPlayers 4 1 exRecordDup []) p).isSome)
    ∧ (∃ i j : ℕ, i < 4 ∧ j < 4 ∧ i ≠ j
        ∧ (recordPlayers exRecordDup).getD i ""
            = (recordPlayers exRecordDup).getD j "")
    ∧ (∀ (e : List (String × Rating)) (i j : ℕ),
        (recordPlayers exRecordDup).getD i ""
            = (recordPlayers exRecordDup).getD j "" →
        dgetD e ((recordPlayers exRecordDup).getD i "") defaultRating
          = dgetD e ((recordPlayers exRecordDup).getD j "") defaultRating)
    ∧ ((([] : List (String × Rating)).map Prod.fst).Nodup →
        ((processRecord exRate 4 1 [] exRecordDup).map Prod.fst).Nodup) :=
  c9_duplicate_slots exRate 4 1 [] exRecordDup (by decide)

/-- C10: in a 4-player ranking (remaining = 1), rank 3 gets Bronze, and the
Gold and Silver bands are empty — no player is assigned Gold or Silver. -/
theorem c10_four_players (s : List (String × ℚ))
    (h : (s.map Prod.fst).Nodup) (h4 : s.length = 4) :
    dfind (assign_titles s) (nameAt s 3) = some bronzeMedal
    ∧ (∀ p v, dfind (assign_titles s) p = some v →
        v ≠ goldMedal ∧ v ≠ silverMedal) := by
  constructor
  · rw [dfind_assign_titles s h (by omega), h4]
    rfl
  · intro p v hpv
    have hmem := dfind_mem hpv
    rw [assign_titles_eq s h, List.mem_map] at hmem
    obtain ⟨j, hj, he⟩ := hmem
    rw [List.mem_range] at hj
    have hv : titleAt s.length j = v := congrArg Prod.snd he
    rw [h4] at hj hv
    have hj4 : j = 0 ∨ j = 1 ∨ j = 2 ∨ j = 3 := by omega
    rcases hj4 with rfl | rfl | rfl | rfl <;> rw [← hv] <;>
      exact ⟨by decide, by decide⟩

/-- C10 witness: concrete 4-player ranking, rank 3 is Bronze. -/
theorem c10_witness :
    dfind (assign_titles exRanking4) (nameAt exRanking4 3)
      = some bronzeMedal :=
  (c10_four_players exRanking4 (by decide) (by decide)).1

end PadelScores
